import Mathlib

/-!
Verification of the clangd background indexer core
(`clang-tools-extra/clangd/index/Background.cpp`).

The C++ code is shallowly embedded: maps (`llvm::StringMap`) become
association lists, the opaque SHA-1 digest becomes an opaque byte list
compared for equality, and the external collaborators (URI resolution,
the virtual filesystem, the shard storage, the parser) become function
parameters.  Every definition follows the corresponding C++ function.
-/

namespace BgIndex

/-- Absolute file paths (opaque strings). -/
abbrev Path := String

/-- URIs appearing in include graphs (opaque strings). -/
abbrev Uri := String

/-- Raw file contents, as handed out by the virtual filesystem. -/
abbrev Bytes := List Nat

/-- Model of `FileDigest`: fixed-width content hash, opaque and compared bytewise. -/
abbrev FileDigest := List Nat

/-- Model of `ShardVersion` from `Background.h`: the per-path freshness record.
Default values model the default constructor used by `try_emplace`. -/
structure ShardVersion where
  Digest : FileDigest := []
  HadErrors : Bool := false
deriving DecidableEq

/-- The `ShardVersions` map (`llvm::StringMap<ShardVersion>`), modelled as an
association list whose first matching entry is the binding. -/
abbrev SVMap := List (Path × ShardVersion)

/-- Lookup (`StringMap::find`) on the shard-version map. -/
def svFind (m : SVMap) (p : Path) : Option ShardVersion :=
  (m.find? (fun e => decide (e.1 = p))).map (fun e => e.2)

/-- Insert-or-overwrite a shard-version binding (what `try_emplace` followed by
assignment, or `operator[]` followed by assignment, does). -/
def svSet (m : SVMap) (p : Path) (v : ShardVersion) : SVMap :=
  match m with
  | [] => [(p, v)]
  | e :: rest => if e.1 = p then (p, v) :: rest else e :: svSet rest p v

/-- The set of paths bound in a shard-version map. -/
def svKeys (m : SVMap) : List Path := m.map (fun e => e.1)

/-! ## The TU indexer's file filter (`BackgroundIndex::index`, `IndexOpts.FileFilter`) -/

/-- The per-file information the filter lambda extracts inside the parser:
whether `SM.getFileEntryForID(FID)` is non-null, the result of
`getCanonicalPath`, and the result of `digestFile`. -/
structure FileFilterInput where
  hasFileEntry : Bool
  absPath : Option Path
  fileDigest : Option FileDigest
deriving DecidableEq

/-- The file-filter lambda of `BackgroundIndex::index`: returns `false` (skip)
for invalid files, files without an absolute path, files whose digest cannot
be computed, and files whose snapshot entry matches the digest without errors;
returns `true` (index it) otherwise. -/
def fileFilter (snapshot : SVMap) (inp : FileFilterInput) : Bool :=
  if !inp.hasFileEntry then false
  else
    match inp.absPath with
    | none => false
    | some abs =>
      match inp.fileDigest with
      | none => false
      | some d =>
        match svFind snapshot abs with
        | some sv => if sv.Digest = d ∧ sv.HadErrors = false then false else true
        | none => true

def inputNoAbs : FileFilterInput := { hasFileEntry := true, absPath := none, fileDigest := none }

/-- Claim C2 (counterexample): the filter returns `false` (skip) for a file
that has no absolute path at all, although the claim says `false` is returned
only when the file has an absolute path whose digest matches an error-free
snapshot entry. -/
theorem fileFilter_skips_file_without_abs_path :
    fileFilter [] inputNoAbs = false ∧ inputNoAbs.absPath = none := by
  exact ⟨rfl, rfl⟩

/-- Claim C2 (amended): the filter returns `false` (skip) iff the file entry is
invalid, or no absolute path is available, or digesting fails, or the snapshot
contains an entry for the path whose digest matches and whose `HadErrors` flag
is false; in every other case it returns `true` (index the file). -/
theorem fileFilter_false_iff (snapshot : SVMap) (inp : FileFilterInput) :
    fileFilter snapshot inp = false ↔
      inp.hasFileEntry = false ∨ inp.absPath = none ∨ inp.fileDigest = none ∨
      ∃ abs d sv, inp.absPath = some abs ∧ inp.fileDigest = some d ∧
        svFind snapshot abs = some sv ∧ sv.Digest = d ∧ sv.HadErrors = false := by
  unfold fileFilter
  rcases inp with ⟨fe, ap, fd⟩
  cases fe <;> cases ap <;> cases fd <;> simp
  rename_i abs d
  cases hsv : svFind snapshot abs
  · simp [hsv]
  · rename_i sv
    by_cases h : sv.Digest = d ∧ sv.HadErrors = false <;> simp [hsv, h]

/-! ## Include graphs (`IncludeGraphNode` / `IncludeGraph`) -/

/-- Model of `IncludeGraphNode`: URI, digest, direct includes, and the two
`SourceFlag` bits (`IsTU`, `HadErrors`).  Defaults model the
default-constructed node. -/
structure IGNode where
  uri : Uri := ""
  digest : FileDigest := []
  directIncludes : List Uri := []
  isTU : Bool := false
  hadErrors : Bool := false
deriving DecidableEq

/-- Model of `IncludeGraph`: a `StringMap` from URI to node, as an association list. -/
abbrev IncludeGraph := List (Uri × IGNode)

/-! ## `BackgroundIndex::update`: selecting the files to rewrite -/

/-- The condition of `update`'s first loop deciding whether a source node's
path must be rewritten: no snapshot entry, or a different digest, or the
snapshot entry had errors while this run does not. -/
def includeCond (snapshot : SVMap) (hadErrors : Bool) (abs : Path) (n : IGNode) : Bool :=
  match svFind snapshot abs with
  | none => true
  | some sv => decide (sv.Digest ≠ n.digest) || (sv.HadErrors && !hadErrors)

/-- The `Files` map of `update` restricted to what the selection loop writes:
the new digest recorded per file-to-rewrite. -/
abbrev FileMap := List (Path × FileDigest)

def fmFind (m : FileMap) (p : Path) : Option FileDigest :=
  (m.find? (fun e => decide (e.1 = p))).map (fun e => e.2)

/-- Model of `Files.try_emplace(AbsPath)` followed by assigning `.Digest`. -/
def fmSet (m : FileMap) (p : Path) (d : FileDigest) : FileMap :=
  match m with
  | [] => [(p, d)]
  | e :: rest => if e.1 = p then (p, d) :: rest else e :: fmSet rest p d

def fmKeys (m : FileMap) : List Path := m.map (fun e => e.1)

/-- The first loop of `BackgroundIndex::update`: for every node of
`Index.Sources`, resolve its URI and record the node's digest iff the
rewrite condition holds. -/
def buildFiles (resolve : Uri → Path) (snapshot : SVMap) (hadErrors : Bool)
    (sources : IncludeGraph) : FileMap :=
  sources.foldl
    (fun files e =>
      let abs := resolve e.2.uri
      if includeCond snapshot hadErrors abs e.2 then fmSet files abs e.2.digest else files)
    []

theorem fmFind_cons (e : Path × FileDigest) (rest : FileMap) (q : Path) :
    fmFind (e :: rest) q = if e.1 = q then some e.2 else fmFind rest q := by
  by_cases h : e.1 = q <;> simp [fmFind, List.find?, h]

theorem fmFind_fmSet (m : FileMap) (p : Path) (d : FileDigest) (q : Path) :
    fmFind (fmSet m p d) q = if q = p then some d else fmFind m q := by
  induction m with
  | nil =>
    by_cases h : q = p <;> simp [fmSet, fmFind, h, eq_comm]
  | cons e rest ih =>
    by_cases he : e.1 = p
    · rw [fmSet, if_pos he, fmFind_cons, fmFind_cons, he]
      by_cases h : q = p
      · simp [h]
      · have hpq : ¬p = q := fun hc => h hc.symm
        rw [if_neg h, if_neg hpq, if_neg hpq]
    · rw [fmSet, if_neg he, fmFind_cons, fmFind_cons, ih]
      by_cases h : e.1 = q
      · rw [if_pos h, if_pos h, if_neg (fun hc : q = p => he (h.trans hc))]
      · rw [if_neg h, if_neg h]

theorem fmKeys_fmSet_mem (m : FileMap) (p : Path) (d : FileDigest) (q : Path) :
    q ∈ fmKeys (fmSet m p d) ↔ q = p ∨ q ∈ fmKeys m := by
  induction m with
  | nil => simp [fmSet, fmKeys, eq_comm]
  | cons e rest ih =>
    by_cases he : e.1 = p
    · rw [fmSet, if_pos he]
      simp only [fmKeys, List.map_cons, List.mem_cons] at ih ⊢
      rw [← he]
      tauto
    · rw [fmSet, if_neg he]
      simp only [fmKeys, List.map_cons, List.mem_cons] at ih ⊢
      rw [ih]
      tauto

/-- Claim C4: in `update`, a resolved path of a node of the TU's sources graph
is selected as a file-to-rewrite iff the snapshot has no entry for it, or the
entry's digest differs from the node's, or the entry had errors while this
result does not; and each selected path's recorded new digest is the digest of
a node that qualified for it. -/
theorem update_files_to_rewrite_charact (resolve : Uri → Path) (snapshot : SVMap)
    (hadErrors : Bool) (sources : IncludeGraph) :
    (∀ abs : Path, abs ∈ fmKeys (buildFiles resolve snapshot hadErrors sources) ↔
      ∃ e ∈ sources, resolve e.2.uri = abs ∧ includeCond snapshot hadErrors abs e.2 = true) ∧
    (∀ abs d, fmFind (buildFiles resolve snapshot hadErrors sources) abs = some d →
      ∃ e ∈ sources, resolve e.2.uri = abs ∧ includeCond snapshot hadErrors abs e.2 = true ∧
        e.2.digest = d) := by
  induction sources using List.reverseRecOn with
  | nil =>
    constructor
    · intro abs
      simp [buildFiles, fmKeys]
    · intro abs d h
      simp [buildFiles, fmFind] at h
  | append_singleton l e ih =>
    have hstep : buildFiles resolve snapshot hadErrors (l ++ [e]) =
        (let abs := resolve e.2.uri
         if includeCond snapshot hadErrors abs e.2 then
           fmSet (buildFiles resolve snapshot hadErrors l) abs e.2.digest
         else buildFiles resolve snapshot hadErrors l) := by
      simp only [buildFiles, List.foldl_append, List.foldl_cons, List.foldl_nil]
    by_cases hc : includeCond snapshot hadErrors (resolve e.2.uri) e.2 = true
    · rw [hstep]
      simp only [hc, if_true]
      constructor
      · intro abs
        rw [fmKeys_fmSet_mem, ih.1 abs]
        constructor
        · rintro (rfl | ⟨e', he', hres, hcond⟩)
          · exact ⟨e, by simp, rfl, hc⟩
          · exact ⟨e', by simp [he'], hres, hcond⟩
        · rintro ⟨e', he', hres, hcond⟩
          rcases List.mem_append.mp he' with h' | h'
          · exact Or.inr ⟨e', h', hres, hcond⟩
          · rcases List.mem_singleton.mp h' with rfl
            exact Or.inl hres.symm
      · intro abs d h
        rw [fmFind_fmSet] at h
        by_cases habs : abs = resolve e.2.uri
        · rw [if_pos habs] at h
          cases h
          exact ⟨e, by simp, habs.symm, habs ▸ hc, rfl⟩
        · rw [if_neg habs] at h
          rcases ih.2 abs d h with ⟨e', he', hres, hcond, hd⟩
          exact ⟨e', by simp [he'], hres, hcond, hd⟩
    · have hc' : includeCond snapshot hadErrors (resolve e.2.uri) e.2 = false :=
        Bool.eq_false_iff.mpr hc
      rw [hstep]
      simp only [hc', Bool.false_eq_true, if_false]
      constructor
      · intro abs
        rw [ih.1 abs]
        constructor
        · rintro ⟨e', he', hres, hcond⟩
          exact ⟨e', by simp [he'], hres, hcond⟩
        · rintro ⟨e', he', hres, hcond⟩
          rcases List.mem_append.mp he' with h' | h'
          · exact ⟨e', h', hres, hcond⟩
          · rcases List.mem_singleton.mp h' with rfl
            rw [← hres] at hcond
            exact absurd hcond hc
      · intro abs d h
        rcases ih.2 abs d h with ⟨e', he', hres, hcond, hd⟩
        exact ⟨e', by simp [he'], hres, hcond, hd⟩

def uriA : Uri := "file:///a.cpp"

def pathA : Path := "/a.cpp"

def digA : FileDigest := [1]

def resolveA : Uri → Path := fun _ => pathA

def nodeA : IGNode := { uri := uriA, digest := digA }

def srcsA : IncludeGraph := [(uriA, nodeA)]

/-- Witness for claim C4 at a concrete one-node sources graph and an empty
snapshot. -/
theorem update_files_to_rewrite_charact_witness :
    (pathA ∈ fmKeys (buildFiles resolveA [] false srcsA) ↔
      ∃ e ∈ srcsA, resolveA e.2.uri = pathA ∧ includeCond [] false pathA e.2 = true) ∧
    (∃ e ∈ srcsA, resolveA e.2.uri = pathA ∧ includeCond [] false pathA e.2 = true ∧
      e.2.digest = digA) :=
  ⟨(update_files_to_rewrite_charact resolveA [] false srcsA).1 pathA,
   (update_files_to_rewrite_charact resolveA [] false srcsA).2 pathA digA (by decide)⟩

/-! ## `BackgroundIndex::update`: persisting shards and committing in memory -/

/-- The `IndexedSymbols` store (`FileSymbols`), reduced to what the claims
observe: per path, the `CountReferences` flag of the latest `update` call
(the slabs themselves are opaque). -/
abbrev ISMap := List (Path × Bool)

/-- Model of `FileSymbols::update(Path, …, CountReferences)`: replace the entry. -/
def fileSymbolsUpdate (m : ISMap) (p : Path) (countsRefs : Bool) : ISMap :=
  match m with
  | [] => [(p, countsRefs)]
  | e :: rest =>
    if e.1 = p then (p, countsRefs) :: rest else e :: fileSymbolsUpdate rest p countsRefs

/-- An `IndexFileOut` shard as handed to `storeShard`, reduced to what the
claims observe: its path and whether `Shard.Cmd` was attached. -/
structure StoredShardM where
  path : Path
  hasCmd : Bool
deriving DecidableEq

/-- The state `update`'s per-file loop acts on: the two in-memory stores plus
a log of the attempted `storeShard` calls and of the paths whose in-memory
entry was (re)written. -/
structure UpdState where
  shardVersions : SVMap
  indexedSymbols : ISMap
  storeAttempts : List (StoredShardM × Bool)
  committed : List Path
deriving DecidableEq

def initUpd (svs : SVMap) (isyms : ISMap) : UpdState := ⟨svs, isyms, [], []⟩

/-- The commit step of `update`'s per-file loop, performed under
`ShardVersionsMu`: `try_emplace`, then the skip condition exactly as written
in the source (`!DigestIt.second && SV.Digest == Hash && SV.HadErrors &&
!HadErrors`), then assignment of the new version and
`IndexedSymbols.update(Path, …, Path == MainFile)`. -/
def commitFile (main : Path) (hadErrors : Bool) (path : Path) (hash : FileDigest)
    (st : UpdState) : UpdState :=
  match svFind st.shardVersions path with
  | some sv =>
    if sv.Digest = hash ∧ sv.HadErrors = true ∧ hadErrors = false then st
    else
      { st with shardVersions := svSet st.shardVersions path ⟨hash, hadErrors⟩,
                indexedSymbols := fileSymbolsUpdate st.indexedSymbols path (decide (path = main)),
                committed := st.committed ++ [path] }
  | none =>
      { st with shardVersions := svSet st.shardVersions path ⟨hash, hadErrors⟩,
                indexedSymbols := fileSymbolsUpdate st.indexedSymbols path (decide (path = main)),
                committed := st.committed ++ [path] }

/-- One iteration of `update`'s per-file loop: build the shard (`Shard.Cmd` is
attached iff the path is the TU main file), attempt `storeShard` (a failure is
only logged), then commit in memory. -/
def storeAndCommit (storeOk : Path → Bool) (main : Path) (hadErrors : Bool)
    (st : UpdState) (entry : Path × FileDigest) : UpdState :=
  let shard : StoredShardM := ⟨entry.1, decide (entry.1 = main)⟩
  let st1 := { st with storeAttempts := st.storeAttempts ++ [(shard, storeOk entry.1)] }
  commitFile main hadErrors entry.1 entry.2 st1

/-- The per-file loop of `BackgroundIndex::update` over the files-to-rewrite.
`storeOk` is the oracle for the outcome of each `storeShard` call. -/
def updateRun (storeOk : Path → Bool) (main : Path) (hadErrors : Bool)
    (files : FileMap) (st : UpdState) : UpdState :=
  files.foldl (storeAndCommit storeOk main hadErrors) st

theorem commitFile_storeAttempts (main : Path) (he : Bool) (p : Path) (h : FileDigest)
    (st : UpdState) : (commitFile main he p h st).storeAttempts = st.storeAttempts := by
  unfold commitFile
  cases svFind st.shardVersions p
  · rfl
  · dsimp only
    split <;> rfl

theorem commitFile_mem_eq (main : Path) (he : Bool) (p : Path) (h : FileDigest)
    (sv : SVMap) (is : ISMap) (A A' : List (StoredShardM × Bool)) (c : List Path) :
    commitFile main he p h ⟨sv, is, A, c⟩ =
      { commitFile main he p h ⟨sv, is, A', c⟩ with storeAttempts := A } := by
  unfold commitFile
  dsimp only
  cases svFind sv p
  · rfl
  · dsimp only
    split <;> rfl

theorem updateRun_storeAttempts (ok : Path → Bool) (main : Path) (he : Bool) :
    ∀ (files : FileMap) (st : UpdState),
      (updateRun ok main he files st).storeAttempts =
        st.storeAttempts ++ files.map (fun f => (⟨f.1, decide (f.1 = main)⟩, ok f.1)) := by
  intro files
  induction files with
  | nil => intro st; simp [updateRun]
  | cons f fs ih =>
    intro st
    have h1 : updateRun ok main he (f :: fs) st =
        updateRun ok main he fs (storeAndCommit ok main he st f) := rfl
    rw [h1, ih]
    rw [storeAndCommit]
    rw [commitFile_storeAttempts]
    simp

theorem updateRun_mem_indep (main : Path) (he : Bool) (ok ok' : Path → Bool) :
    ∀ (files : FileMap) (sv : SVMap) (is : ISMap) (A A' : List (StoredShardM × Bool))
      (c : List Path),
      (updateRun ok main he files ⟨sv, is, A, c⟩).shardVersions =
        (updateRun ok' main he files ⟨sv, is, A', c⟩).shardVersions ∧
      (updateRun ok main he files ⟨sv, is, A, c⟩).indexedSymbols =
        (updateRun ok' main he files ⟨sv, is, A', c⟩).indexedSymbols ∧
      (updateRun ok main he files ⟨sv, is, A, c⟩).committed =
        (updateRun ok' main he files ⟨sv, is, A', c⟩).committed := by
  intro files
  induction files with
  | nil => intro sv is A A' c; exact ⟨rfl, rfl, rfl⟩
  | cons f fs ih =>
    intro sv is A A' c
    have h1 : updateRun ok main he (f :: fs) ⟨sv, is, A, c⟩ =
        updateRun ok main he fs (storeAndCommit ok main he ⟨sv, is, A, c⟩ f) := rfl
    have h2 : updateRun ok' main he (f :: fs) ⟨sv, is, A', c⟩ =
        updateRun ok' main he fs (storeAndCommit ok' main he ⟨sv, is, A', c⟩ f) := rfl
    rw [h1, h2]
    rw [storeAndCommit, storeAndCommit]
    dsimp only
    rw [commitFile_mem_eq main he f.1 f.2 sv is
      (A ++ [(StoredShardM.mk f.1 (decide (f.1 = main)), ok f.1)])
      (A' ++ [(StoredShardM.mk f.1 (decide (f.1 = main)), ok' f.1)]) c]
    rcases hc : commitFile main he f.1 f.2
      ⟨sv, is, A' ++ [(StoredShardM.mk f.1 (decide (f.1 = main)), ok' f.1)], c⟩
      with ⟨sv2, is2, A2, c2⟩
    exact ih sv2 is2 (A ++ [(StoredShardM.mk f.1 (decide (f.1 = main)), ok f.1)]) A2 c2

/-- Claim C7: a `storeShard` failure is only logged — the in-memory
shard-version table, indexed-symbols store and set of committed paths are
exactly what they would be had every store succeeded; the loop attempts a
store for every file-to-rewrite; and the compile command is attached to a
shard iff it is the main file's shard. -/
theorem update_store_error_keeps_memory (ok : Path → Bool) (main : Path) (he : Bool)
    (files : FileMap) (svs : SVMap) (isyms : ISMap) :
    ((updateRun ok main he files (initUpd svs isyms)).shardVersions =
      (updateRun (fun _ => true) main he files (initUpd svs isyms)).shardVersions) ∧
    ((updateRun ok main he files (initUpd svs isyms)).indexedSymbols =
      (updateRun (fun _ => true) main he files (initUpd svs isyms)).indexedSymbols) ∧
    ((updateRun ok main he files (initUpd svs isyms)).committed =
      (updateRun (fun _ => true) main he files (initUpd svs isyms)).committed) ∧
    (∀ a ∈ (updateRun ok main he files (initUpd svs isyms)).storeAttempts,
      a.1.hasCmd = true ↔ a.1.path = main) ∧
    (updateRun ok main he files (initUpd svs isyms)).storeAttempts.length = files.length := by
  refine ⟨(updateRun_mem_indep main he ok (fun _ => true) files svs isyms [] [] []).1,
    (updateRun_mem_indep main he ok (fun _ => true) files svs isyms [] [] []).2.1,
    (updateRun_mem_indep main he ok (fun _ => true) files svs isyms [] [] []).2.2, ?_, ?_⟩
  · intro a ha
    rw [updateRun_storeAttempts] at ha
    simp only [initUpd, List.nil_append, List.mem_map] at ha
    rcases ha with ⟨f, _, rfl⟩
    simp
  · rw [updateRun_storeAttempts]
    simp [initUpd]

/-- Witness for claim C7: one file, failing store — memory state matches the
all-stores-succeed run and the store was attempted. -/
theorem update_store_error_keeps_memory_witness :
    ((updateRun (fun _ => false) pathA false [(pathA, digA)] (initUpd [] [])).shardVersions =
      (updateRun (fun _ => true) pathA false [(pathA, digA)] (initUpd [] [])).shardVersions) ∧
    (updateRun (fun _ => false) pathA false [(pathA, digA)]
      (initUpd [] [])).storeAttempts.length = 1 :=
  ⟨(update_store_error_keeps_memory (fun _ => false) pathA false [(pathA, digA)] [] []).1,
   (update_store_error_keeps_memory (fun _ => false) pathA false [(pathA, digA)] [] []).2.2.2.2⟩

/-- Claim C1 (code bug): the skip condition of `update`'s commit is inverted
with respect to its own comment and to the file-selection loop.  With an
existing entry `{digA, HadErrors = true}` and a new result with the same
digest and no errors — the "previously broken, now fixed" case the comment
says must NOT be skipped — the commit is skipped: the entry keeps
`HadErrors = true` and `IndexedSymbols.update` is not called.  Conversely,
with an existing error-free entry of equal digest — the "already up to date"
case the comment says to skip — the commit is performed. -/
theorem update_commit_inverted_skip :
    ((updateRun (fun _ => true) pathA false [(pathA, digA)]
        (initUpd [(pathA, ⟨digA, true⟩)] [])).shardVersions = [(pathA, ⟨digA, true⟩)] ∧
     (updateRun (fun _ => true) pathA false [(pathA, digA)]
        (initUpd [(pathA, ⟨digA, true⟩)] [])).committed = []) ∧
    ((updateRun (fun _ => true) pathA false [(pathA, digA)]
        (initUpd [(pathA, ⟨digA, false⟩)] [])).shardVersions = [(pathA, ⟨digA, false⟩)] ∧
     (updateRun (fun _ => true) pathA false [(pathA, digA)]
        (initUpd [(pathA, ⟨digA, false⟩)] [])).committed = [pathA]) := by
  exact ⟨⟨by decide, by decide⟩, ⟨by decide, by decide⟩⟩

/-! ## `BackgroundIndex::index`: the uncompilable-error flag (`HadErrors`) -/

/-- Model of `llvm::StringMap::lookup`: the mapped node, or a default-constructed node
when the URI is absent. -/
def igLookupD (g : IncludeGraph) (u : Uri) : IGNode :=
  ((g.find? (fun e => decide (e.1 = u))).map (fun e => e.2)).getD {}

/-- Model of `getSubGraph(U, FullGraph)`: the node of `U` (with its URI rewritten to
the key) plus skeletal URI-only entries for each direct include. -/
def getSubGraphM (fileURI : Uri) (full : IncludeGraph) : IncludeGraph :=
  let node := { igLookupD full fileURI with uri := fileURI }
  node.directIncludes.foldl
    (fun ig inc =>
      if (ig.find? (fun e => decide (e.1 = inc))).isSome then ig
      else ig ++ [(inc, { uri := inc })])
    [(fileURI, node)]

/-- The `if (HadErrors)` loop of `BackgroundIndex::index`: OR the `HadErrors`
flag into every node of `Index.Sources`. -/
def markHadErrors (hadErrors : Bool) (g : IncludeGraph) : IncludeGraph :=
  if hadErrors then g.map (fun e => (e.1, { e.2 with hadErrors := true })) else g

/-- The post-parse step of `BackgroundIndex::index`: `HadErrors` is the
parser's uncompilable-error report, and when set it is propagated into the
sources graph before `update` is called. -/
def indexPostParse (uncompilable : Bool) (sources : IncludeGraph) : Bool × IncludeGraph :=
  (uncompilable, markHadErrors uncompilable sources)

theorem subgraph_foldl_ext (l : List Uri) : ∀ acc : IncludeGraph,
    ∃ rest,
      l.foldl
        (fun ig inc =>
          if (ig.find? (fun e => decide (e.1 = inc))).isSome then ig
          else ig ++ [(inc, { uri := inc })])
        acc = acc ++ rest := by
  induction l with
  | nil => intro acc; exact ⟨[], by simp⟩
  | cons inc l ih =>
    intro acc
    simp only [List.foldl_cons]
    by_cases h : (acc.find? (fun e => decide (e.1 = inc))).isSome
    · rw [if_pos h]
      exact ih acc
    · rw [if_neg h]
      rcases ih (acc ++ [(inc, { uri := inc })]) with ⟨rest, hrest⟩
      exact ⟨(inc, { uri := inc }) :: rest, by rw [hrest]; simp⟩

theorem getSubGraphM_head (fileURI : Uri) (full : IncludeGraph) :
    ∃ rest, getSubGraphM fileURI full =
      (fileURI, { igLookupD full fileURI with uri := fileURI }) :: rest := by
  unfold getSubGraphM
  rcases subgraph_foldl_ext ({ igLookupD full fileURI with uri := fileURI } : IGNode).directIncludes
    [(fileURI, { igLookupD full fileURI with uri := fileURI })] with ⟨rest, hrest⟩
  exact ⟨rest, by rw [hrest]; simp⟩

/-- Claim C5: `index` sets `HadErrors` iff the parser reported an
uncompilable error; when set, every node of the result's sources graph
carries the flag, and hence the self node of every per-file shard cut from
that graph by `getSubGraph` carries it too. -/
theorem index_had_errors_marks_sources (uncompilable : Bool) (g : IncludeGraph) :
    (indexPostParse uncompilable g).1 = uncompilable ∧
    (uncompilable = true → ∀ e ∈ (indexPostParse uncompilable g).2, e.2.hadErrors = true) ∧
    (uncompilable = true → ∀ u ∈ g.map (fun e => e.1),
      (igLookupD (getSubGraphM u (indexPostParse uncompilable g).2) u).hadErrors = true) := by
  refine ⟨rfl, ?_, ?_⟩
  · rintro rfl e he
    simp only [indexPostParse, markHadErrors, if_pos] at he
    simp only [List.mem_map] at he
    rcases he with ⟨e0, _, rfl⟩
    rfl
  · rintro rfl u hu
    have hmarked : ∀ e ∈ (indexPostParse true g).2, e.2.hadErrors = true := by
      intro e he
      simp only [indexPostParse, markHadErrors, if_pos] at he
      simp only [List.mem_map] at he
      rcases he with ⟨e0, _, rfl⟩
      rfl
    rcases getSubGraphM_head u (indexPostParse true g).2 with ⟨rest, hrest⟩
    rw [hrest]
    have hfind : igLookupD ((u, { igLookupD (indexPostParse true g).2 u with uri := u }) :: rest) u
        = { igLookupD (indexPostParse true g).2 u with uri := u } := by
      simp [igLookupD, List.find?]
    rw [hfind]
    show (igLookupD (indexPostParse true g).2 u).hadErrors = true
    rcases hf : (indexPostParse true g).2.find? (fun e => decide (e.1 = u)) with _ | e
    · exfalso
      rcases List.mem_map.mp hu with ⟨e0, he0, rfl⟩
      have : (e0.1, { e0.2 with hadErrors := true }) ∈ (indexPostParse true g).2 := by
        simp only [indexPostParse, markHadErrors, if_pos]
        exact List.mem_map.mpr ⟨e0, he0, rfl⟩
      have := List.find?_eq_none.mp hf _ this
      simp at this
    · have hmem := List.mem_of_find?_eq_some hf
      have := hmarked e hmem
      simp [igLookupD, hf, this]

/-- Witness for claim C5 at the concrete one-node sources graph. -/
theorem index_had_errors_marks_sources_witness :
    (indexPostParse true srcsA).1 = true ∧
    (∀ e ∈ (indexPostParse true srcsA).2, e.2.hadErrors = true) ∧
    (igLookupD (getSubGraphM uriA (indexPostParse true srcsA).2) uriA).hadErrors = true :=
  ⟨(index_had_errors_marks_sources true srcsA).1,
   (index_had_errors_marks_sources true srcsA).2.1 rfl,
   (index_had_errors_marks_sources true srcsA).2.2 rfl uriA (by decide)⟩

/-! ## The task queue (`enqueueTask` / `run`) -/

/-- Task priorities: `llvm::ThreadPriority::Default` (called Normal here, as
in the spec) and `llvm::ThreadPriority::Background`. -/
inductive TaskPriority where
  | Normal
  | Background
deriving DecidableEq

/-- The queue contents; only the priorities matter for the ordering claims. -/
abbrev TaskQueue := List TaskPriority

/-- Model of `BackgroundIndex::enqueueTask`: a Normal task is spliced immediately
before the first Background task (found by linear scan); a Background task is
appended at the end. -/
def enqueueTask (q : TaskQueue) (p : TaskPriority) : TaskQueue :=
  match p with
  | .Normal =>
    q.takeWhile (fun x => !decide (x = TaskPriority.Background)) ++
      TaskPriority.Normal :: q.dropWhile (fun x => !decide (x = TaskPriority.Background))
  | .Background => q ++ [TaskPriority.Background]

/-- The queue states reachable from empty under the operations the source
performs: `enqueueTask`, a worker popping the front in `run`, and the
stop-clear in `run`'s shutdown path. -/
inductive QueueReachable : TaskQueue → Prop where
  | init : QueueReachable []
  | enqueue (q : TaskQueue) (p : TaskPriority) :
      QueueReachable q → QueueReachable (enqueueTask q p)
  | dispatch (q : TaskQueue) : QueueReachable q → QueueReachable q.tail
  | stopClear (q : TaskQueue) : QueueReachable q → QueueReachable []

/-- The pairwise ordering relation: no Background task earlier than a Normal
task. -/
def prioOrder (a b : TaskPriority) : Prop :=
  ¬(a = TaskPriority.Background ∧ b = TaskPriority.Normal)

theorem reachable_pairwise (q : TaskQueue) (h : QueueReachable q) :
    q.Pairwise prioOrder := by
  induction h with
  | init => exact List.Pairwise.nil
  | enqueue q p hq ih =>
    cases p with
    | Normal =>
      rw [enqueueTask]
      have hsplit :
          q.takeWhile (fun x => !decide (x = TaskPriority.Background)) ++
            q.dropWhile (fun x => !decide (x = TaskPriority.Background)) = q :=
        List.takeWhile_append_dropWhile _ _
      rw [← hsplit] at ih
      rw [List.pairwise_append] at ih
      rw [List.pairwise_append]
      refine ⟨ih.1, ?_, ?_⟩
      · rw [List.pairwise_cons]
        refine ⟨?_, ih.2.1⟩
        intro y _
        intro hc
        cases hc.1
      · intro a ha b hb
        rcases List.mem_cons.mp hb with rfl | hb'
        · intro hc
          have := List.mem_takeWhile_imp ha
          rw [hc.1] at this
          simp at this
        · exact ih.2.2 a ha b hb'
    | Background =>
      rw [enqueueTask]
      rw [List.pairwise_append]
      refine ⟨ih, List.pairwise_singleton _ _, ?_⟩
      intro a _ b hb
      rcases List.mem_singleton.mp hb with rfl
      intro hc
      cases hc.2
  | dispatch q hq ih => exact ih.sublist (List.tail_sublist q)
  | stopClear q hq ih => exact List.Pairwise.nil

/-- Claim C3: at every reachable queue state, every Normal task's position
strictly precedes every Background task's position — the splice-before-first-
Background insertion, the append of Background tasks, front-only removal and
the stop-clear all preserve the invariant. -/
theorem queue_normal_before_background (q : TaskQueue) (h : QueueReachable q)
    (i j : Nat) (hi : i < q.length) (hj : j < q.length)
    (hN : q.get ⟨i, hi⟩ = TaskPriority.Normal)
    (hB : q.get ⟨j, hj⟩ = TaskPriority.Background) : i < j := by
  have hp := reachable_pairwise q h
  rw [List.pairwise_iff_get] at hp
  rcases Nat.lt_trichotomy i j with h1 | h1 | h1
  · exact h1
  · subst h1
    rw [hN] at hB
    cases hB
  · have := hp ⟨j, hj⟩ ⟨i, hi⟩ h1
    rw [hB, hN] at this
    exact absurd ⟨rfl, rfl⟩ this

/-- Witness for claim C3: the reachable queue `[Normal, Background]`, built by
enqueueing a Background task and then a Normal task, puts the Normal task
first. -/
theorem queue_normal_before_background_witness :
    QueueReachable [TaskPriority.Normal, TaskPriority.Background] ∧ (0 : Nat) < 1 := by
  have h0 : QueueReachable [] := QueueReachable.init
  have h1 : QueueReachable [TaskPriority.Background] := by
    have := QueueReachable.enqueue [] TaskPriority.Background h0
    simpa [enqueueTask] using this
  have h2 : QueueReachable [TaskPriority.Normal, TaskPriority.Background] := by
    have := QueueReachable.enqueue [TaskPriority.Background] TaskPriority.Normal h1
    simpa [enqueueTask, List.takeWhile, List.dropWhile] using this
  exact ⟨h2, queue_normal_before_background _ h2 0 1 (by decide) (by decide) rfl rfl⟩

/-! ## `BackgroundIndex::loadShard`: the dependency walk over stored shards -/

/-- A stored shard (`IndexFileIn` as returned by `loadShard` from storage),
reduced to its `Sources` graph; the slabs are opaque to the walk. -/
structure IndexShardM where
  sources : Option IncludeGraph := none
deriving DecidableEq

/-- Model of `BackgroundIndex::Source`: a dependency paired with its
`NeedsReIndexing` flag. -/
structure SourceDep where
  path : Path
  needsReIndexing : Bool
deriving DecidableEq

/-- The `ShardInfo` of `loadShard`: what is remembered per successfully loaded
shard for the final install step (the moved shard itself is opaque). -/
structure ShardInfoM where
  absolutePath : Path
  digest : FileDigest
  countReferences : Bool
  hadErrors : Bool
deriving DecidableEq

/-- The shard storage (`BackgroundIndexStorage`), as a lookup table. -/
abbrev ShardStore := List (Path × IndexShardM)

/-- Model of `IndexStorage->loadShard(path)`. -/
def storeLoad (store : ShardStore) (p : Path) : Option IndexShardM :=
  (store.find? (fun e => decide (e.1 = p))).map (fun e => e.2)

/-- The state threaded through the inner loop over a shard's include-graph
edges: newly enqueued dependencies, the `InQueue` set, the current
dependency's `NeedsReIndexing` flag, and the `IntermediateSymbols` gathered. -/
structure VisitState where
  newTV : List SourceDep
  inQueue : List Path
  needs : Bool
  infos : List ShardInfoM
deriving DecidableEq

/-- One iteration of `loadShard`'s loop over `*Shard->Sources`: parse and
resolve the edge URI (skipping the record on failure), enqueue the path if
unseen, and — when the edge names the current dependency itself — record the
`ShardInfo` and recompute `NeedsReIndexing` from the on-disk digest. -/
def visitEntry (fs : Path → Option Bytes) (dg : Bytes → FileDigest)
    (rv : Uri → Path → Option Path) (curPath : Path)
    (st : VisitState) (e : Uri × IGNode) : VisitState :=
  match rv e.1 curPath with
  | none => st
  | some abs =>
    let st1 :=
      if abs ∈ st.inQueue then st
      else { st with newTV := st.newTV ++ [⟨abs, true⟩], inQueue := abs :: st.inQueue }
    if abs = curPath then
      let st2 :=
        { st1 with infos := st1.infos ++ [⟨curPath, e.2.digest, e.2.isTU, e.2.hadErrors⟩] }
      match fs curPath with
      | none => st2
      | some b => { st2 with needs := decide (dg b ≠ e.2.digest) }
    else st1

/-- The loop over all edges of a loaded shard's sources graph. -/
def expandShard (fs : Path → Option Bytes) (dg : Bytes → FileDigest)
    (rv : Uri → Path → Option Path) (curPath : Path) (g : IncludeGraph)
    (iq0 : List Path) (needs0 : Bool) : VisitState :=
  g.foldl (visitEntry fs dg rv curPath) ⟨[], iq0, needs0, []⟩

/-- The distinct paths for which the storage holds a shard (used only by the
termination measure of the walk). -/
def storeKeys (store : ShardStore) : List Path := (store.map (fun e => e.1)).dedup

/-- How many stored shards have not been put into `LoadedShards` yet. -/
def remainingShards (store : ShardStore) (loaded : List Path) : Nat :=
  ((storeKeys store).filter (fun k => decide (k ∉ loaded))).length

/-- Total number of include-graph edges across all stored shards. -/
def totalEntries (store : ShardStore) : Nat :=
  (store.map (fun e => (e.2.sources.getD []).length)).sum

theorem visitEntry_newTV_le (fs : Path → Option Bytes) (dg : Bytes → FileDigest)
    (rv : Uri → Path → Option Path) (curPath : Path) (st : VisitState) (e : Uri × IGNode) :
    (visitEntry fs dg rv curPath st e).newTV.length ≤ st.newTV.length + 1 := by
  unfold visitEntry
  cases rv e.1 curPath with
  | none => simp
  | some abs =>
    dsimp only
    by_cases hmem : abs ∈ st.inQueue
    · rw [if_pos hmem]
      by_cases hself : abs = curPath
      · rw [if_pos hself]
        cases fs curPath <;> simp
      · rw [if_neg hself]
        simp
    · rw [if_neg hmem]
      by_cases hself : abs = curPath
      · rw [if_pos hself]
        cases fs curPath <;> simp
      · rw [if_neg hself]
        simp

theorem expandShard_newTV_le (fs : Path → Option Bytes) (dg : Bytes → FileDigest)
    (rv : Uri → Path → Option Path) (curPath : Path) (g : IncludeGraph)
    (iq0 : List Path) (needs0 : Bool) :
    (expandShard fs dg rv curPath g iq0 needs0).newTV.length ≤ g.length := by
  have gen : ∀ (l : List (Uri × IGNode)) (st : VisitState),
      (l.foldl (visitEntry fs dg rv curPath) st).newTV.length ≤ st.newTV.length + l.length := by
    intro l
    induction l with
    | nil => intro st; simp
    | cons e l ih =>
      intro st
      simp only [List.foldl_cons, List.length_cons]
      have h1 := ih (visitEntry fs dg rv curPath st e)
      have h2 := visitEntry_newTV_le fs dg rv curPath st e
      omega
  have := gen g ⟨[], iq0, needs0, []⟩
  simpa [expandShard] using this

theorem storeLoad_mem_storeKeys (store : ShardStore) (p : Path) (sh : IndexShardM)
    (h : storeLoad store p = some sh) : p ∈ storeKeys store := by
  unfold storeLoad at h
  rcases hf : store.find? (fun e => decide (e.1 = p)) with _ | e
  · rw [hf] at h; cases h
  · have hp := List.find?_some hf
    have hmem := List.mem_of_find?_eq_some hf
    simp only [decide_eq_true_eq] at hp
    unfold storeKeys
    rw [List.mem_dedup]
    exact List.mem_map.mpr ⟨e, hmem, hp⟩

theorem storeLoad_sources_le (store : ShardStore) (p : Path) (sh : IndexShardM)
    (g : IncludeGraph) (h : storeLoad store p = some sh) (hs : sh.sources = some g) :
    g.length ≤ totalEntries store := by
  unfold storeLoad at h
  rcases hf : store.find? (fun e => decide (e.1 = p)) with _ | e
  · rw [hf] at h; cases h
  · rw [hf] at h
    cases h
    have hmem := List.mem_of_find?_eq_some hf
    unfold totalEntries
    have hm : (e.2.sources.getD []).length ∈ store.map (fun e => (e.2.sources.getD []).length) :=
      List.mem_map.mpr ⟨e, hmem, rfl⟩
    have hle := List.single_le_sum (fun x _ => Nat.zero_le x) _ hm
    rw [hs] at hle
    simpa using hle

theorem filter_notmem_cons_lt (l : List Path) (p : Path) (loaded : List Path)
    (hp : p ∈ l) (hnl : p ∉ loaded) :
    (l.filter (fun k => decide (k ∉ p :: loaded))).length + 1 ≤
      (l.filter (fun k => decide (k ∉ loaded))).length := by
  induction l with
  | nil => cases hp
  | cons a l ih =>
    by_cases hap : a = p
    · subst hap
      have hsub : (l.filter (fun k => decide (k ∉ a :: loaded))).Sublist
          (l.filter (fun k => decide (k ∉ loaded))) := by
        apply List.monotone_filter_right
        intro x hx
        simp only [decide_eq_true_eq] at hx ⊢
        intro hmem
        exact hx (List.mem_cons_of_mem a hmem)
      have hlen := hsub.length_le
      have e1 : (decide (a ∉ a :: loaded)) = false := by simp
      have e2 : (decide (a ∉ loaded)) = true := decide_eq_true hnl
      rw [List.filter_cons, List.filter_cons, e1, e2]
      simp only [Bool.false_eq_true, if_false, if_true, List.length_cons]
      omega
    · have hpl : p ∈ l := by
        rcases List.mem_cons.mp hp with h | h
        · exact absurd h.symm hap
        · exact h
      have ihl := ih hpl
      rw [List.filter_cons, List.filter_cons]
      by_cases hmem : a ∈ loaded
      · have e1 : (decide (a ∉ p :: loaded)) = false := by
          simp [List.mem_cons, hmem]
        have e2 : (decide (a ∉ loaded)) = false := by
          simp [hmem]
        rw [e1, e2]
        simpa using ihl
      · have e1 : (decide (a ∉ p :: loaded)) = true := by
          simp [List.mem_cons, hmem, hap]
        have e2 : (decide (a ∉ loaded)) = true := by
          simp [hmem]
        rw [e1, e2]
        simp only [if_true, List.length_cons]
        omega

theorem remainingShards_cons_le (store : ShardStore) (p : Path) (loaded : List Path) :
    remainingShards store (p :: loaded) ≤ remainingShards store loaded := by
  unfold remainingShards
  have hsub : ((storeKeys store).filter (fun k => decide (k ∉ p :: loaded))).Sublist
      ((storeKeys store).filter (fun k => decide (k ∉ loaded))) := by
    apply List.monotone_filter_right
    intro x hx
    simp only [decide_eq_true_eq] at hx ⊢
    intro hmem
    exact hx (List.mem_cons_of_mem p hmem)
  exact hsub.length_le

theorem remainingShards_cons_lt (store : ShardStore) (p : Path) (loaded : List Path)
    (hp : p ∈ storeKeys store) (hnl : p ∉ loaded) :
    remainingShards store (p :: loaded) + 1 ≤ remainingShards store loaded :=
  filter_notmem_cons_lt _ p loaded hp hnl

/-- The BFS of `loadShard`: pop the front dependency, return it immediately if
already in `LoadedShards`, otherwise mark it loaded, load its shard (leaving
`NeedsReIndexing` untouched when the load fails or the shard has no sources),
and otherwise process its edges via `expandShard`.  Terminates for every
finite store — even with cyclic, self-looping or multi-edge include graphs —
because every expansion consumes a distinct stored shard and every enqueue is
guarded by the `InQueue` set. -/
def walkGo (store : ShardStore) (fs : Path → Option Bytes) (dg : Bytes → FileDigest)
    (rv : Uri → Path → Option Path) (tv : List SourceDep) (iq : List Path)
    (loaded : List Path) (deps : List SourceDep) (infos : List ShardInfoM) :
    List SourceDep × List ShardInfoM × List Path :=
  match tv with
  | [] => (deps, infos, loaded)
  | cur :: rest =>
    if hmem : cur.path ∈ loaded then
      walkGo store fs dg rv rest iq loaded (deps ++ [⟨cur.path, false⟩]) infos
    else
      match hload : storeLoad store cur.path with
      | none => walkGo store fs dg rv rest iq (cur.path :: loaded) (deps ++ [cur]) infos
      | some shard =>
        match hsrc : shard.sources with
        | none => walkGo store fs dg rv rest iq (cur.path :: loaded) (deps ++ [cur]) infos
        | some g =>
          walkGo store fs dg rv
            (rest ++ (expandShard fs dg rv cur.path g iq cur.needsReIndexing).newTV)
            (expandShard fs dg rv cur.path g iq cur.needsReIndexing).inQueue
            (cur.path :: loaded)
            (deps ++ [⟨cur.path, (expandShard fs dg rv cur.path g iq cur.needsReIndexing).needs⟩])
            (infos ++ (expandShard fs dg rv cur.path g iq cur.needsReIndexing).infos)
termination_by tv.length + (1 + totalEntries store) * remainingShards store loaded
decreasing_by
· simp only [List.length_cons]
  omega
· simp only [List.length_cons]
  have h1 := remainingShards_cons_le store cur.path loaded
  have h2 := Nat.mul_le_mul_left (1 + totalEntries store) h1
  omega
· simp only [List.length_cons]
  have h1 := remainingShards_cons_le store cur.path loaded
  have h2 := Nat.mul_le_mul_left (1 + totalEntries store) h1
  omega
· simp only [List.length_cons, List.length_append]
  have ha := expandShard_newTV_le fs dg rv cur.path g iq cur.needsReIndexing
  have hb := storeLoad_sources_le store cur.path shard g hload hsrc
  have hc := remainingShards_cons_lt store cur.path loaded
    (storeLoad_mem_storeKeys store cur.path shard hload) hmem
  have hm := Nat.mul_le_mul_left (1 + totalEntries store) hc
  rw [Nat.mul_add, Nat.mul_one] at hm
  omega

theorem walkGo_cons_mem (store : ShardStore) (fs : Path → Option Bytes)
    (dg : Bytes → FileDigest) (rv : Uri → Path → Option Path) (cur : SourceDep)
    (rest : List SourceDep) (iq loaded : List Path) (deps : List SourceDep)
    (infos : List ShardInfoM) (h : cur.path ∈ loaded) :
    walkGo store fs dg rv (cur :: rest) iq loaded deps infos =
      walkGo store fs dg rv rest iq loaded (deps ++ [⟨cur.path, false⟩]) infos := by
  rw [walkGo]
  simp only [dif_pos h]

theorem walkGo_cons_nostore (store : ShardStore) (fs : Path → Option Bytes)
    (dg : Bytes → FileDigest) (rv : Uri → Path → Option Path) (cur : SourceDep)
    (rest : List SourceDep) (iq loaded : List Path) (deps : List SourceDep)
    (infos : List ShardInfoM) (hmem : cur.path ∉ loaded)
    (hload : storeLoad store cur.path = none) :
    walkGo store fs dg rv (cur :: rest) iq loaded deps infos =
      walkGo store fs dg rv rest iq (cur.path :: loaded) (deps ++ [cur]) infos := by
  rw [walkGo]
  simp only [dif_neg hmem]
  split
  · rfl
  · rename_i shard heq
    rw [hload] at heq
    cases heq

theorem walkGo_cons_nosrc (store : ShardStore) (fs : Path → Option Bytes)
    (dg : Bytes → FileDigest) (rv : Uri → Path → Option Path) (cur : SourceDep)
    (rest : List SourceDep) (iq loaded : List Path) (deps : List SourceDep)
    (infos : List ShardInfoM) (hmem : cur.path ∉ loaded) (shard : IndexShardM)
    (hload : storeLoad store cur.path = some shard) (hsrc : shard.sources = none) :
    walkGo store fs dg rv (cur :: rest) iq loaded deps infos =
      walkGo store fs dg rv rest iq (cur.path :: loaded) (deps ++ [cur]) infos := by
  rw [walkGo]
  simp only [dif_neg hmem]
  split
  · rfl
  · rename_i shard' heq
    rw [hload] at heq
    cases heq
    split
    · rfl
    · rename_i g heq2
      rw [hsrc] at heq2
      cases heq2

theorem walkGo_cons_expand (store : ShardStore) (fs : Path → Option Bytes)
    (dg : Bytes → FileDigest) (rv : Uri → Path → Option Path) (cur : SourceDep)
    (rest : List SourceDep) (iq loaded : List Path) (deps : List SourceDep)
    (infos : List ShardInfoM) (hmem : cur.path ∉ loaded) (shard : IndexShardM)
    (g : IncludeGraph) (hload : storeLoad store cur.path = some shard)
    (hsrc : shard.sources = some g) :
    walkGo store fs dg rv (cur :: rest) iq loaded deps infos =
      walkGo store fs dg rv
        (rest ++ (expandShard fs dg rv cur.path g iq cur.needsReIndexing).newTV)
        (expandShard fs dg rv cur.path g iq cur.needsReIndexing).inQueue
        (cur.path :: loaded)
        (deps ++ [⟨cur.path, (expandShard fs dg rv cur.path g iq cur.needsReIndexing).needs⟩])
        (infos ++ (expandShard fs dg rv cur.path g iq cur.needsReIndexing).infos) := by
  rw [walkGo]
  simp only [dif_neg hmem]
  split
  · rename_i heq
    rw [hload] at heq
    cases heq
  · rename_i shard' heq
    rw [hload] at heq
    cases heq
    split
    · rename_i heq2
      rw [hsrc] at heq2
      cases heq2
    · rename_i g' heq2
      rw [hsrc] at heq2
      cases heq2
      rfl

theorem walkGo_deps_extend (store : ShardStore) (fs : Path → Option Bytes)
    (dg : Bytes → FileDigest) (rv : Uri → Path → Option Path) (tv : List SourceDep)
    (iq : List Path) (loaded : List Path) (deps : List SourceDep) (infos : List ShardInfoM) :
    ∃ t, (walkGo store fs dg rv tv iq loaded deps infos).1 = deps ++ t := by
  induction tv, iq, loaded, deps, infos using walkGo.induct store fs dg rv with
  | case1 iq loaded deps infos =>
    exact ⟨[], by simp [walkGo]⟩
  | case2 iq loaded deps infos cur rest hmem ih =>
    rcases ih with ⟨t, ht⟩
    rw [walkGo_cons_mem store fs dg rv cur rest iq loaded deps infos hmem]
    exact ⟨⟨cur.path, false⟩ :: t, by rw [ht]; simp⟩
  | case3 iq loaded deps infos cur rest hmem hload ih =>
    rcases ih with ⟨t, ht⟩
    rw [walkGo_cons_nostore store fs dg rv cur rest iq loaded deps infos hmem hload]
    exact ⟨cur :: t, by rw [ht]; simp⟩
  | case4 iq loaded deps infos cur rest hmem shard hload hsrc ih =>
    rcases ih with ⟨t, ht⟩
    rw [walkGo_cons_nosrc store fs dg rv cur rest iq loaded deps infos hmem shard hload hsrc]
    exact ⟨cur :: t, by rw [ht]; simp⟩
  | case5 iq loaded deps infos cur rest hmem shard hload g hsrc ih =>
    rcases ih with ⟨t, ht⟩
    rw [walkGo_cons_expand store fs dg rv cur rest iq loaded deps infos hmem shard g hload hsrc]
    refine ⟨⟨cur.path, (expandShard fs dg rv cur.path g iq cur.needsReIndexing).needs⟩ :: t, ?_⟩
    rw [ht]
    simp

/-- Invariant of `expandShard` relative to the `InQueue` set at entry: newly
enqueued dependencies are pairwise distinct, are recorded in the final
`InQueue`, were not in `InQueue` before, and `InQueue` only grows. -/
def StInv (iq0 : List Path) (st : VisitState) : Prop :=
  (st.newTV.map SourceDep.path).Nodup ∧
  (∀ a ∈ st.newTV, a.path ∈ st.inQueue ∧ a.path ∉ iq0) ∧
  (∀ q ∈ iq0, q ∈ st.inQueue)

theorem visitEntry_StInv (fs : Path → Option Bytes) (dg : Bytes → FileDigest)
    (rv : Uri → Path → Option Path) (curPath : Path) (iq0 : List Path)
    (st : VisitState) (e : Uri × IGNode) (h : StInv iq0 st) :
    StInv iq0 (visitEntry fs dg rv curPath st e) := by
  rcases h with ⟨h1, h2, h3⟩
  unfold visitEntry
  cases rv e.1 curPath with
  | none => exact ⟨h1, h2, h3⟩
  | some abs =>
    dsimp only
    by_cases hmem : abs ∈ st.inQueue
    · rw [if_pos hmem]
      by_cases hself : abs = curPath
      · rw [if_pos hself]
        cases fs curPath
        · exact ⟨h1, h2, h3⟩
        · exact ⟨h1, h2, h3⟩
      · rw [if_neg hself]
        exact ⟨h1, h2, h3⟩
    · rw [if_neg hmem]
      have habs0 : abs ∉ iq0 := fun hc => hmem (h3 abs hc)
      have hst1 : StInv iq0
          { st with newTV := st.newTV ++ [⟨abs, true⟩], inQueue := abs :: st.inQueue } := by
        refine ⟨?_, ?_, ?_⟩
        · simp only [List.map_append, List.map_cons, List.map_nil]
          rw [List.nodup_append]
          refine ⟨h1, List.nodup_singleton _, ?_⟩
          intro x hx hy
          rcases List.mem_singleton.mp hy with rfl
          rcases List.mem_map.mp hx with ⟨a, ha, rfl⟩
          exact hmem (h2 a ha).1
        · intro a ha
          rcases List.mem_append.mp ha with ha' | ha'
          · exact ⟨List.mem_cons_of_mem _ (h2 a ha').1, (h2 a ha').2⟩
          · rcases List.mem_singleton.mp ha' with rfl
            exact ⟨List.mem_cons_self _ _, habs0⟩
        · intro q hq
          exact List.mem_cons_of_mem _ (h3 q hq)
      by_cases hself : abs = curPath
      · rw [if_pos hself]
        cases fs curPath
        · exact ⟨hst1.1, hst1.2.1, hst1.2.2⟩
        · exact ⟨hst1.1, hst1.2.1, hst1.2.2⟩
      · rw [if_neg hself]
        exact hst1

theorem expandShard_StInv (fs : Path → Option Bytes) (dg : Bytes → FileDigest)
    (rv : Uri → Path → Option Path) (curPath : Path) (g : IncludeGraph)
    (iq0 : List Path) (needs0 : Bool) :
    StInv iq0 (expandShard fs dg rv curPath g iq0 needs0) := by
  have gen : ∀ (l : List (Uri × IGNode)) (st : VisitState), StInv iq0 st →
      StInv iq0 (l.foldl (visitEntry fs dg rv curPath) st) := by
    intro l
    induction l with
    | nil => intro st h; exact h
    | cons e l ih =>
      intro st h
      exact ih _ (visitEntry_StInv fs dg rv curPath iq0 st e h)
  refine gen g ⟨[], iq0, needs0, []⟩ ⟨List.Pairwise.nil, ?_, ?_⟩
  · intro a ha
    cases ha
  · intro q hq
    exact hq

/-- Invariant of the BFS: the already recorded dependencies and the pending
queue have pairwise distinct paths, all of them registered in `InQueue`. -/
def WInv (iq : List Path) (tv deps : List SourceDep) : Prop :=
  ((deps.map SourceDep.path) ++ (tv.map SourceDep.path)).Nodup ∧
  (∀ p ∈ deps.map SourceDep.path, p ∈ iq) ∧
  (∀ p ∈ tv.map SourceDep.path, p ∈ iq)

theorem walkGo_nodup (store : ShardStore) (fs : Path → Option Bytes)
    (dg : Bytes → FileDigest) (rv : Uri → Path → Option Path) (tv : List SourceDep)
    (iq : List Path) (loaded : List Path) (deps : List SourceDep) (infos : List ShardInfoM) :
    WInv iq tv deps →
    ((walkGo store fs dg rv tv iq loaded deps infos).1.map SourceDep.path).Nodup := by
  induction tv, iq, loaded, deps, infos using walkGo.induct store fs dg rv with
  | case1 iq loaded deps infos =>
    intro h
    rw [walkGo]
    simpa using h.1
  | case2 iq loaded deps infos cur rest hmem ih =>
    intro h
    rw [walkGo_cons_mem store fs dg rv cur rest iq loaded deps infos hmem]
    apply ih
    refine ⟨?_, ?_, ?_⟩
    · simpa [List.append_assoc] using h.1
    · intro p hp
      simp only [List.map_append, List.map_cons, List.map_nil, List.mem_append,
        List.mem_singleton] at hp
      rcases hp with hp | hp
      · exact h.2.1 p hp
      · subst hp
        exact h.2.2 cur.path (by simp)
    · intro p hp
      exact h.2.2 p (by simp [hp])
  | case3 iq loaded deps infos cur rest hmem hload ih =>
    intro h
    rw [walkGo_cons_nostore store fs dg rv cur rest iq loaded deps infos hmem hload]
    apply ih
    refine ⟨?_, ?_, ?_⟩
    · simpa [List.append_assoc] using h.1
    · intro p hp
      simp only [List.map_append, List.map_cons, List.map_nil, List.mem_append,
        List.mem_singleton] at hp
      rcases hp with hp | hp
      · exact h.2.1 p hp
      · subst hp
        exact h.2.2 cur.path (by simp)
    · intro p hp
      exact h.2.2 p (by simp [hp])
  | case4 iq loaded deps infos cur rest hmem shard hload hsrc ih =>
    intro h
    rw [walkGo_cons_nosrc store fs dg rv cur rest iq loaded deps infos hmem shard hload hsrc]
    apply ih
    refine ⟨?_, ?_, ?_⟩
    · simpa [List.append_assoc] using h.1
    · intro p hp
      simp only [List.map_append, List.map_cons, List.map_nil, List.mem_append,
        List.mem_singleton] at hp
      rcases hp with hp | hp
      · exact h.2.1 p hp
      · subst hp
        exact h.2.2 cur.path (by simp)
    · intro p hp
      exact h.2.2 p (by simp [hp])
  | case5 iq loaded deps infos cur rest hmem shard hload g hsrc ih =>
    intro h
    rw [walkGo_cons_expand store fs dg rv cur rest iq loaded deps infos hmem shard g hload hsrc]
    have S := expandShard_StInv fs dg rv cur.path g iq cur.needsReIndexing
    apply ih
    have hsubq := S.2.2
    have hnewmem := S.2.1
    refine ⟨?_, ?_, ?_⟩
    · have hdisj : ∀ a, a ∈ deps.map SourceDep.path ++ cur.path :: rest.map SourceDep.path →
          a ∈ (expandShard fs dg rv cur.path g iq cur.needsReIndexing).newTV.map SourceDep.path →
          False := by
        intro a ha hb
        rcases List.mem_map.mp hb with ⟨b, hbmem, rfl⟩
        have hbn : b.path ∉ iq := (hnewmem b hbmem).2
        rcases List.mem_append.mp ha with ha' | ha'
        · exact hbn (h.2.1 _ ha')
        · exact hbn (h.2.2 _ (by simpa using ha'))
      have hXN := List.Nodup.append h.1 S.1 hdisj
      simpa [List.append_assoc] using hXN
    · intro p hp
      simp only [List.map_append, List.map_cons, List.map_nil, List.mem_append,
        List.mem_singleton] at hp
      rcases hp with hp | hp
      · exact hsubq p (h.2.1 p hp)
      · subst hp
        exact hsubq cur.path (h.2.2 cur.path (by simp))
    · intro p hp
      simp only [List.map_append, List.mem_append] at hp
      rcases hp with hp | hp
      · exact hsubq p (h.2.2 p (by simp [hp]))
      · rcases List.mem_map.mp hp with ⟨b, hbmem, rfl⟩
        exact (hnewmem b hbmem).1

/-- The edges of a shard's sources graph whose parsed-and-resolved URI names
the current dependency itself — the node(s) the walk treats as the source of
truth for this path. -/
def selfNodes (rv : Uri → Path → Option Path) (curPath : Path) (g : IncludeGraph) :
    List IGNode :=
  g.filterMap (fun e => if rv e.1 curPath = some curPath then some e.2 else none)

theorem visitEntry_needs (fs : Path → Option Bytes) (dg : Bytes → FileDigest)
    (rv : Uri → Path → Option Path) (curPath : Path) (st : VisitState) (e : Uri × IGNode) :
    (visitEntry fs dg rv curPath st e).needs =
      match rv e.1 curPath with
      | none => st.needs
      | some abs =>
        if abs = curPath then
          match fs curPath with
          | none => st.needs
          | some b => decide (dg b ≠ e.2.digest)
        else st.needs := by
  unfold visitEntry
  cases rv e.1 curPath with
  | none => rfl
  | some abs =>
    dsimp only
    by_cases hmem : abs ∈ st.inQueue
    · rw [if_pos hmem]
      by_cases hself : abs = curPath
      · rw [if_pos hself, if_pos hself]
        cases fs curPath <;> rfl
      · rw [if_neg hself, if_neg hself]
    · rw [if_neg hmem]
      by_cases hself : abs = curPath
      · rw [if_pos hself, if_pos hself]
        cases fs curPath <;> rfl
      · rw [if_neg hself, if_neg hself]

theorem expandShard_needs (fs : Path → Option Bytes) (dg : Bytes → FileDigest)
    (rv : Uri → Path → Option Path) (curPath : Path) (g : IncludeGraph)
    (iq0 : List Path) (needs0 : Bool) :
    (expandShard fs dg rv curPath g iq0 needs0).needs =
      match fs curPath, (selfNodes rv curPath g).getLast? with
      | some b, some n => decide (dg b ≠ n.digest)
      | _, _ => needs0 := by
  have gen : ∀ (l : List (Uri × IGNode)) (st : VisitState),
      (l.foldl (visitEntry fs dg rv curPath) st).needs =
        match fs curPath, (selfNodes rv curPath l).getLast? with
        | some b, some n => decide (dg b ≠ n.digest)
        | _, _ => st.needs := by
    intro l
    induction l using List.reverseRecOn with
    | nil =>
      intro st
      simp only [List.foldl_nil, selfNodes, List.filterMap_nil, List.getLast?_nil]
      cases fs curPath <;> rfl
    | append_singleton l e ihl =>
      intro st
      rw [List.foldl_append, List.foldl_cons, List.foldl_nil]
      rw [visitEntry_needs]
      rcases hrv : rv e.1 curPath with _ | abs
      · have hsame : selfNodes rv curPath (l ++ [e]) = selfNodes rv curPath l := by
          simp [selfNodes, List.filterMap_append, hrv]
        rw [hsame]
        exact ihl st
      · dsimp only
        by_cases habs : abs = curPath
        · rw [if_pos habs]
          have hsame : selfNodes rv curPath (l ++ [e]) = selfNodes rv curPath l ++ [e.2] := by
            simp [selfNodes, List.filterMap_append, hrv, habs]
          rw [hsame, List.getLast?_concat]
          cases hfs : fs curPath with
          | none => rw [ihl st, hfs]
          | some b => rfl
        · rw [if_neg habs]
          have hsame : selfNodes rv curPath (l ++ [e]) = selfNodes rv curPath l := by
            simp [selfNodes, List.filterMap_append, hrv, habs]
          rw [hsame]
          exact ihl st
  exact gen g ⟨[], iq0, needs0, []⟩

/-- The final `NeedsReIndexing` value the loop body of `loadShard` computes
for one popped dependency, given the `LoadedShards` and `InQueue` sets at that
moment (this is exactly the per-pop slice of `walkGo`). -/
def dependencyNeeds (store : ShardStore) (fs : Path → Option Bytes) (dg : Bytes → FileDigest)
    (rv : Uri → Path → Option Path) (loaded : List Path) (iq : List Path)
    (cur : SourceDep) : Bool :=
  if cur.path ∈ loaded then false
  else
    match storeLoad store cur.path with
    | none => cur.needsReIndexing
    | some shard =>
      match shard.sources with
      | none => cur.needsReIndexing
      | some g => (expandShard fs dg rv cur.path g iq cur.needsReIndexing).needs

/-- Claim C6: a popped dependency ends with `NeedsReIndexing = false` iff it
was already in `LoadedShards`, or its shard loads with a sources graph whose
self node's digest equals the digest of the file's current on-disk bytes; a
failed load, a missing sources graph or an unreadable file leave the flag
`true`. -/
theorem load_shard_needs_reindexing_iff (store : ShardStore) (fs : Path → Option Bytes)
    (dg : Bytes → FileDigest) (rv : Uri → Path → Option Path) (loaded : List Path)
    (iq : List Path) (cur : SourceDep) (h : cur.needsReIndexing = true) :
    dependencyNeeds store fs dg rv loaded iq cur = false ↔
      cur.path ∈ loaded ∨
      ∃ shard g b n, storeLoad store cur.path = some shard ∧ shard.sources = some g ∧
        fs cur.path = some b ∧ (selfNodes rv cur.path g).getLast? = some n ∧
        dg b = n.digest := by
  unfold dependencyNeeds
  by_cases hmem : cur.path ∈ loaded
  · simp [hmem]
  · rw [if_neg hmem]
    cases hload : storeLoad store cur.path with
    | none =>
      dsimp only
      rw [h]
      constructor
      · intro hc
        cases hc
      · rintro (hc | ⟨shard, g, b, n, hl, _⟩)
        · exact absurd hc hmem
        · exact Option.noConfusion hl
    | some shard =>
      dsimp only
      cases hsrc : shard.sources with
      | none =>
        dsimp only
        rw [h]
        constructor
        · intro hc
          cases hc
        · rintro (hc | ⟨shard', g, b, n, hl, hs, _⟩)
          · exact absurd hc hmem
          · cases hl
            rw [hsrc] at hs
            cases hs
      | some g =>
        dsimp only
        rw [expandShard_needs, h]
        cases hfs : fs cur.path with
        | none =>
          constructor
          · intro hc
            exact Bool.noConfusion hc
          · rintro (hc | ⟨shard', g', b, n, hl, hs, hf, _⟩)
            · exact absurd hc hmem
            · exact Option.noConfusion hf
        | some b =>
          cases hlast : (selfNodes rv cur.path g).getLast? with
          | none =>
            constructor
            · intro hc
              exact Bool.noConfusion hc
            · rintro (hc | ⟨shard', g', b', n, hl, hs, hf, hn, _⟩)
              · exact absurd hc hmem
              · cases hl
                rw [hsrc] at hs
                cases hs
                rw [hlast] at hn
                exact Option.noConfusion hn
          | some n =>
            constructor
            · intro hc
              right
              exact ⟨shard, g, b, n, rfl, hsrc, rfl, hlast, by simpa using hc⟩
            · rintro (hc | ⟨shard', g', b', n', hl, hs, hf, hn, heq⟩)
              · exact absurd hc hmem
              · cases hl
                rw [hsrc] at hs
                cases hs
                cases hf
                rw [hlast] at hn
                cases hn
                simp [heq]

def shardA : IndexShardM := { sources := some [(uriA, nodeA)] }

def storeA : ShardStore := [(pathA, shardA)]

def fsA : Path → Option Bytes := fun _ => some digA

def dgA : Bytes → FileDigest := fun b => b

def rvA : Uri → Path → Option Path := fun _ _ => some pathA

def depA : SourceDep := ⟨pathA, true⟩

/-- Witness for claim C6 at a concrete one-shard store whose self node's
digest matches the on-disk bytes. -/
theorem load_shard_needs_reindexing_iff_witness :
    depA.needsReIndexing = true ∧
    (dependencyNeeds storeA fsA dgA rvA [] [pathA] depA = false ↔
      depA.path ∈ ([] : List Path) ∨
      ∃ shard g b n, storeLoad storeA depA.path = some shard ∧ shard.sources = some g ∧
        fsA depA.path = some b ∧ (selfNodes rvA depA.path g).getLast? = some n ∧
        dgA b = n.digest) :=
  ⟨rfl, load_shard_needs_reindexing_iff storeA fsA dgA rvA [] [pathA] depA rfl⟩

theorem walkGo_head_of_deps (store : ShardStore) (fs : Path → Option Bytes)
    (dg : Bytes → FileDigest) (rv : Uri → Path → Option Path) (tv : List SourceDep)
    (iq loaded : List Path) (d0 : SourceDep) (drest : List SourceDep)
    (infos : List ShardInfoM) :
    (walkGo store fs dg rv tv iq loaded (d0 :: drest) infos).1.head? = some d0 := by
  rcases walkGo_deps_extend store fs dg rv tv iq loaded (d0 :: drest) infos with ⟨t, ht⟩
  rw [ht]
  rfl

/-- Model of `tooling::CompileCommand`, reduced to the fields `loadShard` reads. -/
structure CompileCommandM where
  filename : Path
  directory : Path
deriving DecidableEq

/-- Model of `getAbsolutePath(Cmd)`: the filename itself when absolute, else the
join with `Cmd.Directory` with dot segments removed (`removeDots` stands for
`llvm::sys::path::remove_dots`). -/
def getAbsolutePathM (isAbs : Path → Bool) (removeDots : Path → Path)
    (cmd : CompileCommandM) : Path :=
  if isAbs cmd.filename then cmd.filename else removeDots (cmd.directory ++ "/" ++ cmd.filename)

/-- Model of `BackgroundIndex::loadShard`: seed the BFS with the TU's resolved main
path (marked `NeedsReIndexing = true`, and inserted into `InQueue`) and run
the walk.  Returns `(Dependencies, IntermediateSymbols, LoadedShards)`. -/
def loadShardM (store : ShardStore) (fs : Path → Option Bytes) (dg : Bytes → FileDigest)
    (rv : Uri → Path → Option Path) (isAbs : Path → Bool) (removeDots : Path → Path)
    (cmd : CompileCommandM) (loadedShards : List Path) :
    List SourceDep × List ShardInfoM × List Path :=
  walkGo store fs dg rv [⟨getAbsolutePathM isAbs removeDots cmd, true⟩]
    [getAbsolutePathM isAbs removeDots cmd] loadedShards [] []

/-- Claim C9: the walk of `loadShard` terminates on every finite shard store,
cyclic include graphs included (`walkGo` is total, by well-founded recursion
on pending queue length plus unvisited stored shards), and its loop body runs
at most once per distinct absolute path: the returned dependency paths are
pairwise distinct. -/
theorem load_shard_walk_visits_each_path_once (store : ShardStore) (fs : Path → Option Bytes)
    (dg : Bytes → FileDigest) (rv : Uri → Path → Option Path) (isAbs : Path → Bool)
    (removeDots : Path → Path) (cmd : CompileCommandM) (loadedShards : List Path) :
    ((loadShardM store fs dg rv isAbs removeDots cmd loadedShards).1.map
      SourceDep.path).Nodup := by
  apply walkGo_nodup
  refine ⟨by simp, ?_, ?_⟩
  · intro p hp
    simp at hp
  · intro p hp
    simp only [List.map_cons, List.map_nil, List.mem_singleton] at hp
    simp [hp]

/-- Claim C10: the dependency list returned by `loadShard` contains each
absolute path at most once, and its first element is the TU's resolved main
absolute path. -/
theorem load_shard_deps_head_and_unique (store : ShardStore) (fs : Path → Option Bytes)
    (dg : Bytes → FileDigest) (rv : Uri → Path → Option Path) (isAbs : Path → Bool)
    (removeDots : Path → Path) (cmd : CompileCommandM) (loadedShards : List Path) :
    (∃ b, (loadShardM store fs dg rv isAbs removeDots cmd loadedShards).1.head? =
      some ⟨getAbsolutePathM isAbs removeDots cmd, b⟩) ∧
    ((loadShardM store fs dg rv isAbs removeDots cmd loadedShards).1.map
      SourceDep.path).Nodup := by
  constructor
  · unfold loadShardM
    by_cases hmem :
        (⟨getAbsolutePathM isAbs removeDots cmd, true⟩ : SourceDep).path ∈ loadedShards
    · rw [walkGo_cons_mem store fs dg rv _ [] _ loadedShards [] [] hmem]
      exact ⟨false, by apply walkGo_head_of_deps⟩
    · cases hload :
          storeLoad store (⟨getAbsolutePathM isAbs removeDots cmd, true⟩ : SourceDep).path with
      | none =>
        rw [walkGo_cons_nostore store fs dg rv _ [] _ loadedShards [] [] hmem hload]
        exact ⟨true, by apply walkGo_head_of_deps⟩
      | some shard =>
        cases hsrc : shard.sources with
        | none =>
          rw [walkGo_cons_nosrc store fs dg rv _ [] _ loadedShards [] [] hmem shard hload hsrc]
          exact ⟨true, by apply walkGo_head_of_deps⟩
        | some g =>
          rw [walkGo_cons_expand store fs dg rv _ [] _ loadedShards [] [] hmem shard g hload hsrc]
          exact ⟨_, by apply walkGo_head_of_deps⟩
  · apply walkGo_nodup
    refine ⟨by simp, ?_, ?_⟩
    · intro p hp
      simp at hp
    · intro p hp
      simp only [List.map_cons, List.map_nil, List.mem_singleton] at hp
      simp [hp]

/-- The final step of `loadShard`, under the shard-versions lock: for each
`ShardInfo`, write `ShardVersions[path] = {digest, had_errors}` and call
`IndexedSymbols.update(path, …, CountReferences)`. -/
def installShards (infos : List ShardInfoM) (svs : SVMap) (isyms : ISMap) : SVMap × ISMap :=
  infos.foldl
    (fun st si =>
      (svSet st.1 si.absolutePath ⟨si.digest, si.hadErrors⟩,
       fileSymbolsUpdate st.2 si.absolutePath si.countReferences))
    (svs, isyms)

theorem svKeys_svSet_mem (m : SVMap) (p : Path) (v : ShardVersion) (q : Path) :
    q ∈ svKeys (svSet m p v) ↔ q = p ∨ q ∈ svKeys m := by
  induction m with
  | nil => simp [svSet, svKeys, eq_comm]
  | cons e rest ih =>
    by_cases he : e.1 = p
    · rw [svSet, if_pos he]
      simp only [svKeys, List.map_cons, List.mem_cons] at ih ⊢
      rw [← he]
      tauto
    · rw [svSet, if_neg he]
      simp only [svKeys, List.map_cons, List.mem_cons] at ih ⊢
      rw [ih]
      tauto

theorem commitFile_sv_keys (main : Path) (he : Bool) (p : Path) (h : FileDigest)
    (st : UpdState) (q : Path) (hq : q ∈ svKeys st.shardVersions) :
    q ∈ svKeys (commitFile main he p h st).shardVersions := by
  unfold commitFile
  cases svFind st.shardVersions p
  · dsimp only
    exact (svKeys_svSet_mem _ _ _ _).mpr (Or.inr hq)
  · dsimp only
    split
    · exact hq
    · exact (svKeys_svSet_mem _ _ _ _).mpr (Or.inr hq)

theorem updateRun_sv_keys (ok : Path → Bool) (main : Path) (he : Bool) :
    ∀ (files : FileMap) (st : UpdState) (q : Path), q ∈ svKeys st.shardVersions →
      q ∈ svKeys (updateRun ok main he files st).shardVersions := by
  intro files
  induction files with
  | nil => intro st q hq; exact hq
  | cons f fs ih =>
    intro st q hq
    have h1 : updateRun ok main he (f :: fs) st =
        updateRun ok main he fs (storeAndCommit ok main he st f) := rfl
    rw [h1]
    apply ih
    unfold storeAndCommit
    exact commitFile_sv_keys main he f.1 f.2 _ q hq

theorem installShards_sv_keys :
    ∀ (infos : List ShardInfoM) (svs : SVMap) (isyms : ISMap) (q : Path),
      q ∈ svKeys svs → q ∈ svKeys (installShards infos svs isyms).1 := by
  intro infos
  induction infos with
  | nil => intro svs isyms q hq; exact hq
  | cons si rest ih =>
    intro svs isyms q hq
    have h1 : installShards (si :: rest) svs isyms =
        installShards rest (svSet svs si.absolutePath ⟨si.digest, si.hadErrors⟩)
          (fileSymbolsUpdate isyms si.absolutePath si.countReferences) := rfl
    rw [h1]
    exact ih _ _ q ((svKeys_svSet_mem _ _ _ _).mpr (Or.inr hq))

/-- Claim C8: neither `update`'s commit loop nor `loadShard`'s install step
ever removes a shard-version entry — both only insert or overwrite, so every
path present beforehand is still present afterwards. -/
theorem shard_versions_never_shrink (ok : Path → Bool) (main : Path) (he : Bool)
    (files : FileMap) (infos : List ShardInfoM) (svs : SVMap) (isyms : ISMap)
    (p : Path) (hp : p ∈ svKeys svs) :
    p ∈ svKeys (updateRun ok main he files (initUpd svs isyms)).shardVersions ∧
    p ∈ svKeys (installShards infos svs isyms).1 :=
  ⟨updateRun_sv_keys ok main he files (initUpd svs isyms) p hp,
   installShards_sv_keys infos svs isyms p hp⟩

/-- Witness for claim C8 at a concrete one-entry table. -/
theorem shard_versions_never_shrink_witness :
    pathA ∈ svKeys [(pathA, ⟨digA, false⟩)] ∧
    (pathA ∈ svKeys (updateRun (fun _ => true) pathA false []
        (initUpd [(pathA, ⟨digA, false⟩)] [])).shardVersions ∧
     pathA ∈ svKeys (installShards [] [(pathA, ⟨digA, false⟩)] []).1) :=
  ⟨by decide,
   shard_versions_never_shrink (fun _ => true) pathA false [] [] [(pathA, ⟨digA, false⟩)] []
     pathA (by decide)⟩

end BgIndex
